import Mathlib

/-!
Verification of the core backtesting components of the stock-backtest-system
repository: portfolio accounting (buy/sell), the backtest engine's trading
calendar, performance metrics, and the RSI indicator.

All monetary quantities are modelled over the rationals; undefined (NaN)
indicator values are modelled with Option.
-/

namespace StockBacktest

/-- Trade direction, from services/strategy.py (class Side). -/
inductive Side
  | BUY
  | SELL
deriving DecidableEq, Repr

/-- Record of a single executed trade, from services/strategy.py (class Trade). -/
structure Trade where
  symbol : String
  side : Side
  quantity : ℚ
  price : ℚ
  commission : ℚ
  date : String
deriving DecidableEq, Repr

/-- An open position in a single stock, from services/strategy.py (class Position). -/
structure Position where
  symbol : String
  quantity : ℚ
  avg_price : ℚ
  cost_basis : ℚ
deriving DecidableEq, Repr

/-- Portfolio state, from services/strategy.py (class Portfolio).  The
positions dict is modelled as an association list; equity_history entries
are (date, equity, cash) triples with dates as naturals. -/
structure Portfolio where
  initial_capital : ℚ
  commission_rate : ℚ
  cash : ℚ
  positions : List (String × Position)
  trades : List Trade
  equity_history : List (ℕ × ℚ × ℚ)
deriving DecidableEq, Repr

/-- Portfolio construction: __post_init__ sets cash to initial_capital. -/
def Portfolio.init (cap rate : ℚ) : Portfolio :=
  ⟨cap, rate, cap, [], [], []⟩

/-- Lookup of a symbol's position in the association list; a missing symbol
yields the freshly created empty position, as in Portfolio.get_position. -/
def lookupPos : List (String × Position) → String → Position
  | [], s => ⟨s, 0, 0, 0⟩
  | (s0, p0) :: rest, s => if s0 = s then p0 else lookupPos rest s

/-- Store a position under a symbol, replacing an existing entry or appending
a new one (the dict update performed by Portfolio.get_position / buy / sell). -/
def setPos : List (String × Position) → String → Position → List (String × Position)
  | [], s, p => [(s, p)]
  | (s0, p0) :: rest, s, p =>
    if s0 = s then (s0, p) :: rest else (s0, p0) :: setPos rest s p

/-- Portfolio.get_position: the position for a symbol, created if needed. -/
def Portfolio.getPosition (p : Portfolio) (s : String) : Position :=
  lookupPos p.positions s

/-- Portfolio.buy from services/strategy.py.  Returns the new portfolio and
the executed trade, or none if cost + commission exceeds cash (in which case
the portfolio is returned unchanged: the rejection test precedes
get_position, so not even the positions dict is touched). -/
def Portfolio.buy (p : Portfolio) (symbol : String) (quantity price : ℚ)
    (date : String) : Portfolio × Option Trade :=
  let cost := quantity * price
  let commission := cost * p.commission_rate
  let total_cost := cost + commission
  if total_cost > p.cash then (p, none)
  else
    let position := lookupPos p.positions symbol
    let new_cost_basis := position.cost_basis + cost
    let new_quantity := position.quantity + quantity
    let new_avg : ℚ := if new_quantity > 0 then new_cost_basis / new_quantity else 0
    let position1 : Position := ⟨symbol, new_quantity, new_avg, new_cost_basis⟩
    let trade : Trade := ⟨symbol, Side.BUY, quantity, price, commission, date⟩
    ({ p with
        cash := p.cash - total_cost,
        positions := setPos p.positions symbol position1,
        trades := p.trades ++ [trade] }, some trade)

/-- Portfolio.sell from services/strategy.py.  get_position runs before the
rejection test, so a rejected sell still materialises an empty position entry
for an unknown symbol.  On success the cost basis shrinks proportionally and
a residual quantity below 1e-9 is snapped exactly to zero. -/
def Portfolio.sell (p : Portfolio) (symbol : String) (quantity price : ℚ)
    (date : String) : Portfolio × Option Trade :=
  let position := lookupPos p.positions symbol
  if quantity > position.quantity then
    ({ p with positions := setPos p.positions symbol position }, none)
  else
    let revenue := quantity * price
    let commission := revenue * p.commission_rate
    let net_revenue := revenue - commission
    let sellFrac := quantity / position.quantity
    let cb1 := position.cost_basis - position.cost_basis * sellFrac
    let q1 := position.quantity - quantity
    let position1 : Position :=
      if q1 < 1 / 1000000000 then ⟨symbol, 0, 0, 0⟩
      else ⟨symbol, q1, position.avg_price, cb1⟩
    let trade : Trade := ⟨symbol, Side.SELL, quantity, price, commission, date⟩
    ({ p with
        cash := p.cash + net_revenue,
        positions := setPos p.positions symbol position1,
        trades := p.trades ++ [trade] }, some trade)

/-- A strategy order: one buy or sell call placed against the portfolio. -/
inductive Op
  | buy (symbol : String) (quantity price : ℚ) (date : String)
  | sell (symbol : String) (quantity price : ℚ) (date : String)
deriving DecidableEq, Repr

/-- The quantity argument of an order. -/
def Op.quantity : Op → ℚ
  | .buy _ q _ _ => q
  | .sell _ q _ _ => q

/-- The price argument of an order. -/
def Op.price : Op → ℚ
  | .buy _ _ pr _ => pr
  | .sell _ _ pr _ => pr

/-- An order with positive quantity and positive price. -/
def Op.okQP (op : Op) : Prop := 0 < op.quantity ∧ 0 < op.price

instance (op : Op) : Decidable op.okQP := by
  unfold Op.okQP
  infer_instance

/-- Apply one order to the portfolio, keeping only the state (the trade
result is what the strategy sees; the state is what persists). -/
def applyOp (p : Portfolio) : Op → Portfolio
  | .buy s q pr d => (p.buy s q pr d).1
  | .sell s q pr d => (p.sell s q pr d).1

/-- Apply a sequence of orders in turn. -/
def applyOps (p : Portfolio) (ops : List Op) : Portfolio :=
  ops.foldl applyOp p

/-! ### Performance metrics (services/performance.py) -/

/-- One step of the running-peak loop in _max_drawdown: update the peak,
compute the drawdown at this point ((equity - peak) / peak * 100, or 0 when
the peak is not positive), and keep the most negative drawdown seen. -/
def ddStep (st : ℚ × ℚ) (e : ℚ) : ℚ × ℚ :=
  let peak := if e > st.1 then e else st.1
  let dd := if peak > 0 then (e - peak) / peak * 100 else 0
  (peak, if dd < st.2 then dd else st.2)

/-- _max_drawdown: the peak starts at the first equity value and max_dd at 0;
the loop then runs over the whole equity list (first value included). -/
def maxDrawdown (equities : List ℚ) : ℚ :=
  match equities with
  | [] => 0
  | e0 :: _ => (equities.foldl ddStep (e0, 0)).2

/-- _annualized_return: 0 for curves shorter than 2 points; otherwise
growth = final_equity / initial_capital and years = num_days / 252, with 0
when years ≤ 0 or growth ≤ 0 and (growth ^ (1 / years) - 1) * 100 otherwise.
Real-valued because of the fractional power. -/
noncomputable def annualizedReturn (equities : List ℚ) (initial_capital : ℚ) : ℝ :=
  if equities.length < 2 then 0
  else
    let growth : ℝ := ((equities.getLastD 0 : ℚ) : ℝ) / (initial_capital : ℝ)
    let years : ℝ := (equities.length : ℝ) / 252
    if years ≤ 0 ∨ growth ≤ 0 then 0
    else (growth ^ ((1 : ℝ) / years) - 1) * 100

/-- Append a BUY to the queue of unmatched buys of its symbol (creating the
queue if needed), as in _trade_statistics. -/
def pushOpen : List (String × List Trade) → Trade → List (String × List Trade)
  | [], t => [(t.symbol, [t])]
  | (s, ts) :: rest, t =>
    if s = t.symbol then (s, ts ++ [t]) :: rest else (s, ts) :: pushOpen rest t

/-- The queue of unmatched buys of a symbol ([] when the symbol is absent). -/
def lookupOpen : List (String × List Trade) → String → List Trade
  | [], _ => []
  | (s, ts) :: rest, s1 => if s = s1 then ts else lookupOpen rest s1

/-- Drop the oldest unmatched buy of a symbol (pop(0) in _trade_statistics). -/
def popOpen : List (String × List Trade) → String → List (String × List Trade)
  | [], _ => []
  | (s, ts) :: rest, s1 =>
    if s = s1 then (s, ts.tail) :: rest else (s, ts) :: popOpen rest s1

/-- One iteration of the trade-matching loop of _trade_statistics: a BUY is
queued; a SELL pops the oldest unmatched BUY of its symbol (if any) and
produces a round-trip pnl percentage. -/
def tradeStep (st : List (String × List Trade) × List ℚ) (t : Trade) :
    List (String × List Trade) × List ℚ :=
  match t.side with
  | Side.BUY => (pushOpen st.1 t, st.2)
  | Side.SELL =>
    match lookupOpen st.1 t.symbol with
    | [] => st
    | b :: _ =>
      let buy_cost := b.quantity * b.price + b.commission
      let sell_revenue := t.quantity * t.price - t.commission
      let pnl_pct := (sell_revenue - buy_cost) / buy_cost * 100
      (popOpen st.1 t.symbol, st.2 ++ [pnl_pct])

/-- The list of round-trip pnl percentages produced by _trade_statistics. -/
def roundTrips (trades : List Trade) : List ℚ :=
  (trades.foldl tradeStep ([], [])).2

/-- total_trades of _trade_statistics: the number of matched round trips. -/
def totalTrades (trades : List Trade) : ℕ :=
  (roundTrips trades).length

/-- win_rate of _trade_statistics: percentage of round trips with positive
pnl (0 when there are no round trips). -/
def winRate (trades : List Trade) : ℚ :=
  let rts := roundTrips trades
  if rts.length = 0 then 0
  else (((rts.filter (fun r => decide (0 < r))).length : ℚ) / (rts.length : ℚ)) * 100

/-! ### RSI (services/indicators.py) -/

/-- The gains series of rsi: delta = diff(series) has an undefined first
entry, and gains = delta.where(delta > 0, 0.0) replaces both the undefined
first entry and the non-positive deltas by 0. -/
def gains : List ℚ → List ℚ
  | [] => []
  | x :: xs =>
    0 :: List.zipWith (fun prev cur => if 0 < cur - prev then cur - prev else 0) (x :: xs) xs

/-- The losses series of rsi: (-delta).where(delta < 0, 0.0), with the
undefined first entry again replaced by 0. -/
def losses : List ℚ → List ℚ
  | [] => []
  | x :: xs =>
    0 :: List.zipWith (fun prev cur => if cur - prev < 0 then -(cur - prev) else 0) (x :: xs) xs

/-- ewm(alpha, adjust=False).mean() from a given seed: y0 = seed and
y(i+1) = (1 - alpha) * y(i) + alpha * x(i+1). -/
def ewmAcc (a y : ℚ) : List ℚ → List ℚ
  | [] => [y]
  | x :: xs => y :: ewmAcc a ((1 - a) * y + a * x) xs

/-- ewm(alpha, adjust=False).mean(): seeded with the first value. -/
def ewmMean (a : ℚ) : List ℚ → List ℚ
  | [] => []
  | x :: xs => ewmAcc a x xs

/-- The pointwise RSI formula 100 - 100 / (1 + avg_gain / avg_loss) over
float semantics: when avg_loss = 0 the quotient is +inf and RSI is 100,
except that 0/0 is NaN (undefined, none). -/
def rsiPoint (g l : ℚ) : Option ℚ :=
  if l = 0 then (if g = 0 then none else some 100)
  else some (100 - 100 / (1 + g / l))

/-- rsi from services/indicators.py over exact rationals, with none for NaN:
Wilder smoothing (alpha = 1/period, adjust=False) of gains and losses, with
min_periods = period masking the first period - 1 outputs. -/
def rsi (s : List ℚ) (period : ℕ) : List (Option ℚ) :=
  let avg_gain := ewmMean (1 / (period : ℚ)) (gains s)
  let avg_loss := ewmMean (1 / (period : ℚ)) (losses s)
  (List.range s.length).map fun i =>
    if i + 1 < period then none
    else rsiPoint (avg_gain.getD i 0) (avg_loss.getD i 0)

/-! ### Backtest engine (services/engine.py) -/

/-- A price series: (date, close) pairs with dates as naturals. -/
abbrev Series := List (ℕ × ℚ)

/-- The per-symbol data map handed to BacktestEngine.run. -/
abbrev DataMap := List (String × Series)

/-- The dates of one symbol's series (the DataFrame index). -/
def datesOf (df : Series) : List ℕ := df.map Prod.fst

/-- _prepare_data: symbols with empty data are skipped.  (Indicator columns
are also added there; they do not affect dates, closes, or equity.) -/
def prepareData (data : DataMap) : DataMap :=
  data.filter (fun sd => !sd.2.isEmpty)

/-- _get_trading_dates: the sorted intersection of all symbols' date sets
(sorted(set first ∩ ...) in Python). -/
def tradingDates (data : DataMap) : List ℕ :=
  match data with
  | [] => []
  | (_, df) :: rest =>
    let common := rest.foldl
      (fun acc sd => acc.filter (fun d => decide (d ∈ datesOf sd.2))) (datesOf df)
    common.dedup.mergeSort (· ≤ ·)

/-- _get_bar_data / _get_current_prices: the close of every symbol whose
series contains the date. -/
def barData (data : DataMap) (d : ℕ) : List (String × ℚ) :=
  data.filterMap (fun sd => (sd.2.lookup d).map (fun c => (sd.1, c)))

/-- Portfolio.total_equity: cash plus the market value of every open
position whose symbol has a current price. -/
def totalEquity (p : Portfolio) (prices : List (String × ℚ)) : ℚ :=
  p.positions.foldl
    (fun (acc : ℚ) (sp : String × Position) =>
      if 0 < sp.2.quantity then
        match prices.lookup sp.1 with
        | some pr => acc + sp.2.quantity * pr
        | none => acc
      else acc)
    p.cash

/-- Portfolio.record_equity: append one (date, equity, cash) snapshot. -/
def recordEquity (p : Portfolio) (d : ℕ) (prices : List (String × ℚ)) : Portfolio :=
  { p with equity_history := p.equity_history ++ [(d, totalEquity p prices, p.cash)] }

/-- One bar of BacktestEngine.run: call the strategy (modelled as the orders
it places) when bar data is present, then record equity at current prices. -/
def engineStep (prepared : DataMap) (onBar : ℕ → List (String × ℚ) → Portfolio → List Op)
    (p : Portfolio) (d : ℕ) : Portfolio :=
  let bar := barData prepared d
  let p1 := if bar.isEmpty then p else applyOps p (onBar d bar p)
  recordEquity p1 d (barData prepared d)

/-- BacktestEngine.run: none models the ValueError raised on empty data or
an empty date intersection; otherwise the engine folds over the trading
dates from a fresh portfolio. -/
def runEngine (cap rate : ℚ) (onBar : ℕ → List (String × ℚ) → Portfolio → List Op)
    (data : DataMap) : Option Portfolio :=
  if data.isEmpty then none
  else
    let prepared := prepareData data
    let dates := tradingDates prepared
    if dates.isEmpty then none
    else some (dates.foldl (engineStep prepared onBar) (Portfolio.init cap rate))

/-! ### Portfolio invariants -/

/-- The cash-relevant part of the portfolio state: nonnegative cash and a
commission rate in [0, 1). -/
def CashInv (p : Portfolio) : Prop :=
  0 ≤ p.cash ∧ 0 ≤ p.commission_rate ∧ p.commission_rate < 1

/-- Positions are well formed: every recorded position has nonnegative
quantity, and a flat position (quantity zero) carries zero cost basis and
zero average price. -/
def PosInv (ps : List (String × Position)) : Prop :=
  ∀ sp ∈ ps, 0 ≤ sp.2.quantity ∧
    (sp.2.quantity = 0 → sp.2.cost_basis = 0 ∧ sp.2.avg_price = 0)

lemma cashInv_buy (p : Portfolio) (s : String) (q pr : ℚ) (d : String)
    (hp : CashInv p) : CashInv ((p.buy s q pr d).1) := by
  obtain ⟨hc, hr0, hr1⟩ := hp
  simp only [Portfolio.buy]
  split
  · exact ⟨hc, hr0, hr1⟩
  · rename_i hle
    push_neg at hle
    exact ⟨by linarith, hr0, hr1⟩

lemma cashInv_sell (p : Portfolio) (s : String) (q pr : ℚ) (d : String)
    (hp : CashInv p) (hq : 0 < q) (hpr : 0 < pr) : CashInv ((p.sell s q pr d).1) := by
  obtain ⟨hc, hr0, hr1⟩ := hp
  simp only [Portfolio.sell]
  split
  · exact ⟨hc, hr0, hr1⟩
  · refine ⟨?_, hr0, hr1⟩
    have hnet : 0 ≤ q * pr - q * pr * p.commission_rate := by
      have h2 : q * pr - q * pr * p.commission_rate
          = q * pr * (1 - p.commission_rate) := by ring
      rw [h2]
      exact le_of_lt (mul_pos (mul_pos hq hpr) (by linarith))
    simpa using by linarith

lemma cashInv_applyOp (p : Portfolio) (op : Op)
    (hp : CashInv p) (hop : op.okQP) : CashInv (applyOp p op) := by
  cases op with
  | buy s q pr d => exact cashInv_buy p s q pr d hp
  | sell s q pr d => exact cashInv_sell p s q pr d hp hop.1 hop.2

lemma cashInv_applyOps (ops : List Op) (p : Portfolio)
    (hp : CashInv p) (hops : ∀ op ∈ ops, op.okQP) : CashInv (applyOps p ops) := by
  induction ops generalizing p with
  | nil => exact hp
  | cons op rest ih =>
    have h1 : CashInv (applyOp p op) :=
      cashInv_applyOp p op hp (hops op (List.mem_cons_self op rest))
    exact ih (applyOp p op) h1 (fun o ho => hops o (List.mem_cons_of_mem op ho))

lemma posInv_lookup (ps : List (String × Position)) (s : String) (hps : PosInv ps) :
    0 ≤ (lookupPos ps s).quantity ∧
      ((lookupPos ps s).quantity = 0 →
        (lookupPos ps s).cost_basis = 0 ∧ (lookupPos ps s).avg_price = 0) := by
  induction ps with
  | nil => simp [lookupPos]
  | cons hd tl ih =>
    obtain ⟨s0, p0⟩ := hd
    by_cases h : s0 = s
    · simpa [lookupPos, h] using hps (s0, p0) (List.mem_cons_self _ _)
    · simpa [lookupPos, h] using
        ih (fun sp hsp => hps sp (List.mem_cons_of_mem _ hsp))

lemma posInv_setPos (ps : List (String × Position)) (s : String) (p : Position)
    (hps : PosInv ps)
    (hp : 0 ≤ p.quantity ∧ (p.quantity = 0 → p.cost_basis = 0 ∧ p.avg_price = 0)) :
    PosInv (setPos ps s p) := by
  induction ps with
  | nil =>
    intro sp hsp
    simp only [setPos, List.mem_singleton] at hsp
    subst hsp
    exact hp
  | cons hd tl ih =>
    obtain ⟨s0, p0⟩ := hd
    intro sp hsp
    simp only [setPos] at hsp
    split at hsp
    · rcases List.mem_cons.mp hsp with h | h
      · subst h; exact hp
      · exact hps sp (List.mem_cons_of_mem _ h)
    · rcases List.mem_cons.mp hsp with h | h
      · subst h; exact hps (s0, p0) (List.mem_cons_self _ _)
      · exact ih (fun x hx => hps x (List.mem_cons_of_mem _ hx)) sp h

lemma lookupPos_setPos (ps : List (String × Position)) (s : String) (p : Position) :
    lookupPos (setPos ps s p) s = p := by
  induction ps with
  | nil => simp [setPos, lookupPos]
  | cons hd tl ih =>
    obtain ⟨s0, p0⟩ := hd
    by_cases h : s0 = s
    · simp [setPos, lookupPos, h]
    · simp [setPos, lookupPos, h, ih]

lemma posInv_buy (p : Portfolio) (s : String) (q pr : ℚ) (d : String)
    (hp : PosInv p.positions) (hq : 0 < q) : PosInv ((p.buy s q pr d).1).positions := by
  simp only [Portfolio.buy]
  split
  · exact hp
  · dsimp only
    apply posInv_setPos _ _ _ hp
    have h0 := (posInv_lookup p.positions s hp).1
    constructor
    · dsimp only; linarith
    · intro hzero
      dsimp only at hzero
      linarith

lemma posInv_sell (p : Portfolio) (s : String) (q pr : ℚ) (d : String)
    (hp : PosInv p.positions) : PosInv ((p.sell s q pr d).1).positions := by
  have hlk := posInv_lookup p.positions s hp
  simp only [Portfolio.sell]
  split
  · exact posInv_setPos _ _ _ hp hlk
  · rename_i hqle
    push_neg at hqle
    dsimp only
    apply posInv_setPos _ _ _ hp
    split
    · exact ⟨le_refl 0, fun _ => ⟨rfl, rfl⟩⟩
    · rename_i hnosnap
      push_neg at hnosnap
      constructor
      · dsimp only; linarith
      · intro hzero
        dsimp only at hzero hnosnap
        exfalso
        rw [hzero] at hnosnap
        norm_num at hnosnap

lemma posInv_applyOps (ops : List Op) (p : Portfolio)
    (hp : PosInv p.positions) (hops : ∀ op ∈ ops, op.okQP) :
    PosInv (applyOps p ops).positions := by
  induction ops generalizing p with
  | nil => exact hp
  | cons op rest ih =>
    have h1 : PosInv (applyOp p op).positions := by
      cases op with
      | buy s q pr d =>
        exact posInv_buy p s q pr d hp (hops _ (List.mem_cons_self _ _)).1
      | sell s q pr d => exact posInv_sell p s q pr d hp
    exact ih (applyOp p op) h1 (fun o ho => hops o (List.mem_cons_of_mem op ho))

/-! ### Claim theorems about the portfolio -/

/-- C1: for every portfolio created with positive initial capital and a
commission rate in [0, 1), after any sequence of buy and sell calls with
positive quantities and prices (rejected calls included), cash is never
negative. -/
theorem claim_c1_cash_never_negative (cap rate : ℚ) (ops : List Op)
    (hcap : 0 < cap) (hr0 : 0 ≤ rate) (hr1 : rate < 1)
    (hops : ∀ op ∈ ops, op.okQP) :
    0 ≤ (applyOps (Portfolio.init cap rate) ops).cash :=
  (cashInv_applyOps ops _ ⟨le_of_lt hcap, hr0, hr1⟩ hops).1

theorem claim_c1_witness :
    0 ≤ (applyOps (Portfolio.init 100 (1 / 100))
      [Op.buy "A" 5 10 "d1", Op.sell "A" 5 12 "d2"]).cash :=
  claim_c1_cash_never_negative 100 (1 / 100)
    [Op.buy "A" 5 10 "d1", Op.sell "A" 5 12 "d2"]
    (by norm_num) (by norm_num) (by norm_num) (by decide)

/-- C2: a buy whose cost plus commission exceeds available cash returns an
empty result and leaves the whole portfolio state (cash, positions, trade
log) exactly unchanged. -/
theorem claim_c2_buy_insufficient_cash_rejects (p : Portfolio) (s : String)
    (q pr : ℚ) (d : String)
    (h : q * pr + q * pr * p.commission_rate > p.cash) :
    p.buy s q pr d = (p, none) := by
  simp only [Portfolio.buy]
  rw [if_pos h]

theorem claim_c2_witness :
    (Portfolio.init 10 (1 / 100)).buy "A" 100 1 "d" = (Portfolio.init 10 (1 / 100), none) :=
  claim_c2_buy_insufficient_cash_rejects (Portfolio.init 10 (1 / 100)) "A" 100 1 "d"
    (by norm_num [Portfolio.init])

/-- C3: after any sequence of buy/sell calls with positive quantity and
price on a fresh portfolio, every position with zero quantity has zero cost
basis and zero average price; and a successful sell leaving a residual
quantity below 1e-9 snaps the position exactly to zero. -/
theorem claim_c3_flat_positions (cap rate : ℚ) (ops : List Op)
    (hops : ∀ op ∈ ops, op.okQP) :
    (∀ sp ∈ (applyOps (Portfolio.init cap rate) ops).positions,
        sp.2.quantity = 0 → sp.2.cost_basis = 0 ∧ sp.2.avg_price = 0) ∧
    (∀ (p : Portfolio) (s : String) (q pr : ℚ) (d : String),
        q ≤ (p.getPosition s).quantity →
        (p.getPosition s).quantity - q < 1 / 1000000000 →
        ((p.sell s q pr d).1).getPosition s = ⟨s, 0, 0, 0⟩) := by
  constructor
  · intro sp hsp
    have hinv : PosInv (applyOps (Portfolio.init cap rate) ops).positions := by
      apply posInv_applyOps ops _ _ hops
      intro x hx
      simp [Portfolio.init] at hx
    exact (hinv sp hsp).2
  · intro p s q pr d hle hsnap
    simp only [Portfolio.getPosition] at hle hsnap
    simp only [Portfolio.sell, Portfolio.getPosition]
    rw [if_neg (by push_neg; exact hle)]
    dsimp only
    rw [if_pos hsnap, lookupPos_setPos]

theorem claim_c3_witness :
    (((Portfolio.init 100 0).sell "A" 0 5 "d").1).getPosition "A" = ⟨"A", 0, 0, 0⟩ :=
  (claim_c3_flat_positions 100 0 [] (by simp)).2
    (Portfolio.init 100 0) "A" 0 5 "d"
    (by norm_num [Portfolio.init, Portfolio.getPosition, lookupPos])
    (by norm_num [Portfolio.init, Portfolio.getPosition, lookupPos])

/-- C9: with positive quantity, sell never divides by zero: either the
quantity exceeds the held position and the call is rejected before the
sell_ratio division is reached, or the held quantity is at least the
(positive) quantity sold, hence nonzero. -/
theorem claim_c9_sell_division_safe (p : Portfolio) (s : String) (q pr : ℚ)
    (d : String) (hq : 0 < q) :
    (q > (p.getPosition s).quantity ∧ (p.sell s q pr d).2 = none) ∨
    (0 < (p.getPosition s).quantity ∧ q ≤ (p.getPosition s).quantity) := by
  by_cases h : q > (p.getPosition s).quantity
  · left
    refine ⟨h, ?_⟩
    simp only [Portfolio.getPosition] at h
    simp only [Portfolio.sell]
    rw [if_pos h]
  · right
    push_neg at h
    exact ⟨lt_of_lt_of_le hq h, h⟩

theorem claim_c9_witness :
    ((3:ℚ) > ((Portfolio.init 100 0).getPosition "A").quantity ∧
      ((Portfolio.init 100 0).sell "A" 3 5 "d").2 = none) ∨
    (0 < ((Portfolio.init 100 0).getPosition "A").quantity ∧
      (3:ℚ) ≤ ((Portfolio.init 100 0).getPosition "A").quantity) :=
  claim_c9_sell_division_safe (Portfolio.init 100 0) "A" 3 5 "d" (by norm_num)

/-- C10: buy rejects exactly when quantity * price * (1 + commission_rate)
exceeds cash, with no validation of quantity or price; in particular a
zero-quantity buy on a portfolio with nonnegative cash succeeds, appends a
trade with quantity 0 and commission 0, and leaves cash and the position's
quantity and cost basis numerically unchanged. -/
theorem claim_c10_buy_zero_quantity (p : Portfolio) (s : String) (pr : ℚ)
    (d : String) :
    (∀ q : ℚ, (p.buy s q pr d).2 = none ↔ q * pr * (1 + p.commission_rate) > p.cash) ∧
    (0 ≤ p.cash →
      (p.buy s 0 pr d).2 = some ⟨s, Side.BUY, 0, pr, 0, d⟩ ∧
      ((p.buy s 0 pr d).1).cash = p.cash ∧
      (((p.buy s 0 pr d).1).getPosition s).quantity = (p.getPosition s).quantity ∧
      (((p.buy s 0 pr d).1).getPosition s).cost_basis = (p.getPosition s).cost_basis ∧
      ((p.buy s 0 pr d).1).trades = p.trades ++ [⟨s, Side.BUY, 0, pr, 0, d⟩]) := by
  have heq : ∀ q : ℚ, q * pr + q * pr * p.commission_rate
      = q * pr * (1 + p.commission_rate) := by intro q; ring
  constructor
  · intro q
    simp only [Portfolio.buy]
    rw [heq q]
    split
    · simpa using (by assumption)
    · rename_i hng
      simp only [Option.some_ne_none]
      push_neg at hng
      constructor
      · intro hfalse
        exact absurd hfalse (by simp)
      · intro hgt
        exact absurd hgt (not_lt.mpr hng)
  · intro hcash
    have hcond : ¬ ((0:ℚ) * pr + 0 * pr * p.commission_rate > p.cash) := by
      simp only [zero_mul, add_zero]
      push_neg
      simpa using hcash
    refine ⟨?_, ?_, ?_, ?_, ?_⟩
    · simp only [Portfolio.buy]
      rw [if_neg hcond]
      simp
    · simp only [Portfolio.buy]
      rw [if_neg hcond]
      simp
    · simp only [Portfolio.buy]
      rw [if_neg hcond]
      simp only [Portfolio.getPosition, lookupPos_setPos]
      simp
    · simp only [Portfolio.buy]
      rw [if_neg hcond]
      simp only [Portfolio.getPosition, lookupPos_setPos]
      simp
    · simp only [Portfolio.buy]
      rw [if_neg hcond]
      simp

theorem claim_c10_witness :
    ((Portfolio.init 50 (1 / 200)).buy "A" 0 7 "d").2
      = some ⟨"A", Side.BUY, 0, 7, 0, "d"⟩ :=
  ((claim_c10_buy_zero_quantity (Portfolio.init 50 (1 / 200)) "A" 7 "d").2
    (by norm_num [Portfolio.init])).1

/-! ### Performance lemmas and claims -/

lemma ite_min_nonpos (dd m : ℚ) (h : m ≤ 0) : (if dd < m then dd else m) ≤ 0 := by
  split
  · rename_i hlt
    linarith
  · exact h

lemma ddStep_snd_nonpos (st : ℚ × ℚ) (e : ℚ) (h : st.2 ≤ 0) : (ddStep st e).2 ≤ 0 := by
  unfold ddStep
  dsimp only
  exact ite_min_nonpos _ _ h

lemma foldl_ddStep_nonpos (l : List ℚ) :
    ∀ st : ℚ × ℚ, st.2 ≤ 0 → (l.foldl ddStep st).2 ≤ 0 := by
  induction l with
  | nil => intro st h; exact h
  | cons e l ih =>
    intro st h
    rw [List.foldl_cons]
    exact ih (ddStep st e) (ddStep_snd_nonpos st e h)

lemma maxDrawdown_nonpos (l : List ℚ) : maxDrawdown l ≤ 0 := by
  cases l with
  | nil => simp [maxDrawdown]
  | cons e0 rest =>
    show ((e0 :: rest).foldl ddStep (e0, 0)).2 ≤ 0
    exact foldl_ddStep_nonpos _ _ (le_refl 0)

lemma ddStep_self (e : ℚ) : ddStep (e, 0) e = (e, 0) := by
  unfold ddStep
  simp

lemma foldl_ddStep_chain (l : List ℚ) :
    ∀ peak : ℚ, List.Chain' (· ≤ ·) (peak :: l) → (l.foldl ddStep (peak, 0)).2 = 0 := by
  induction l with
  | nil => intro peak _; rfl
  | cons e l ih =>
    intro peak hch
    rw [List.chain'_cons] at hch
    obtain ⟨hpe, hch2⟩ := hch
    have hpeak : (if e > peak then e else peak) = e := by
      by_cases hgt : e > peak
      · simp [hgt]
      · simp [hgt, le_antisymm (not_lt.mp hgt) hpe]
    have hstep : ddStep (peak, 0) e = (e, 0) := by
      unfold ddStep
      dsimp only
      rw [hpeak]
      simp
    rw [List.foldl_cons, hstep]
    exact ih e hch2

lemma maxDrawdown_monotone (l : List ℚ) (h : List.Chain' (· ≤ ·) l) :
    maxDrawdown l = 0 := by
  cases l with
  | nil => rfl
  | cons e0 rest =>
    show ((e0 :: rest).foldl ddStep (e0, 0)).2 = 0
    rw [List.foldl_cons, ddStep_self]
    exact foldl_ddStep_chain rest e0 h

/-- C8: the maximum drawdown is the most negative running-peak drawdown
((equity - peak) / peak * 100, 0 when the peak is not positive): on
[100, 120, 90, 110] it is exactly -25, it is never positive, and it is 0
for a curve that never declines. -/
theorem claim_c8_max_drawdown :
    maxDrawdown [100, 120, 90, 110] = -25 ∧
    (∀ l : List ℚ, maxDrawdown l ≤ 0) ∧
    (∀ l : List ℚ, List.Chain' (· ≤ ·) l → maxDrawdown l = 0) := by
  refine ⟨?_, maxDrawdown_nonpos, maxDrawdown_monotone⟩
  norm_num [maxDrawdown, ddStep]

theorem claim_c8_witness : maxDrawdown [100, 105] = 0 :=
  claim_c8_max_drawdown.2.2 [100, 105] (by norm_num [List.chain'_cons])

/-- C6 counterexample: on the one-point curve [200] with initial capital
100 (so years = 1/252 > 0 and growth 2 > 0) the code returns 0 because of
the len < 2 guard, while the claimed formula gives (2 ^ 252 - 1) * 100,
which is not 0 — so something other than years ≤ 0 or ratio ≤ 0 makes the
result 0. -/
theorem claim_c6_counterexample :
    annualizedReturn [200] 100 = 0 ∧
    annualizedReturn [200] 100 ≠
      ((((200 : ℚ) : ℝ) / ((100 : ℚ) : ℝ)) ^ ((1 : ℝ) / ((1 : ℝ) / 252)) - 1) * 100 := by
  have h0 : annualizedReturn [200] 100 = 0 := by
    simp [annualizedReturn]
  refine ⟨h0, ?_⟩
  rw [h0]
  have h1 : (((200 : ℚ) : ℝ) / ((100 : ℚ) : ℝ)) = 2 := by norm_num
  have h2 : (1 : ℝ) / ((1 : ℝ) / 252) = 252 := by norm_num
  rw [h1, h2]
  have h3 : (2 : ℝ) ^ (252 : ℝ) = (2 : ℝ) ^ (252 : ℕ) := by
    rw [show (252 : ℝ) = ((252 : ℕ) : ℝ) by norm_num, Real.rpow_natCast]
  rw [h3]
  have h4 : (1 : ℝ) < 2 ^ (252 : ℕ) := one_lt_pow₀ (by norm_num) (by norm_num)
  intro hc
  nlinarith

/-- C6 (amended): annualized return is 0 exactly when the curve has fewer
than 2 points or growth = final / initial is ≤ 0; otherwise it is
(growth ^ (1 / years) - 1) * 100 with years = count / 252 (which is
automatically positive, so the years ≤ 0 guard adds nothing). -/
theorem claim_c6_annualized_return_amended (equities : List ℚ) (cap : ℚ) :
    annualizedReturn equities cap =
      if equities.length < 2 ∨ (((equities.getLastD 0 : ℚ) : ℝ) / (cap : ℝ)) ≤ 0 then 0
      else ((((equities.getLastD 0 : ℚ) : ℝ) / (cap : ℝ))
              ^ ((252 : ℝ) / (equities.length : ℝ)) - 1) * 100 := by
  simp only [annualizedReturn]
  by_cases h : equities.length < 2
  · simp [h]
  · have hn : 2 ≤ equities.length := not_lt.mp h
    have hlen : (0 : ℝ) < (equities.length : ℝ) := by
      exact_mod_cast lt_of_lt_of_le (by norm_num) hn
    have hpos : (0 : ℝ) < (equities.length : ℝ) / 252 := div_pos hlen (by norm_num)
    have hyears : ¬ ((equities.length : ℝ) / 252 ≤ 0) := not_le.mpr hpos
    by_cases hg : (((equities.getLastD 0 : ℚ) : ℝ) / (cap : ℝ)) ≤ 0
    · simp [h, hg, hyears]
    · have hA : ¬ ((equities.length : ℝ) / 252 ≤ 0 ∨
          (((equities.getLastD 0 : ℚ) : ℝ) / (cap : ℝ)) ≤ 0) := by
        rintro (hx | hx)
        · exact hyears hx
        · exact hg hx
      have hB : ¬ (equities.length < 2 ∨
          (((equities.getLastD 0 : ℚ) : ℝ) / (cap : ℝ)) ≤ 0) := by
        rintro (hx | hx)
        · exact h hx
        · exact hg hx
      rw [if_neg h, if_neg hA, if_neg hB, one_div_div]

/-! ### Trade-statistics lemmas and claims (C5) -/

lemma foldl_tradeStep_all_buys (trades : List Trade)
    (h : ∀ t ∈ trades, t.side = Side.BUY) :
    ∀ st, (trades.foldl tradeStep st).2 = st.2 := by
  induction trades with
  | nil => intro st; rfl
  | cons t rest ih =>
    intro st
    have ht : t.side = Side.BUY := h t (List.mem_cons_self _ _)
    rw [List.foldl_cons, show tradeStep st t = (pushOpen st.1 t, st.2) by
      simp [tradeStep, ht]]
    exact ih (fun x hx => h x (List.mem_cons_of_mem _ hx)) _

/-- C5: trade statistics pair trades FIFO per symbol.  BUY 10@100 with
commission 10 then SELL 10@120 with commission 12 produce exactly one round
trip with the claimed pnl percentage, win rate 100 and one total trade;
unmatched BUYs produce no round trip; and a SELL is matched against the
oldest unmatched BUY of its symbol. -/
theorem claim_c5_trade_statistics :
    (roundTrips [⟨"A", Side.BUY, 10, 100, 10, "d1"⟩, ⟨"A", Side.SELL, 10, 120, 12, "d2"⟩]
      = [((10 * 120 * (99 / 100) - 10 * 100 * (101 / 100))
            / (10 * 100 * (101 / 100))) * 100]) ∧
    winRate [⟨"A", Side.BUY, 10, 100, 10, "d1"⟩, ⟨"A", Side.SELL, 10, 120, 12, "d2"⟩]
      = 100 ∧
    totalTrades [⟨"A", Side.BUY, 10, 100, 10, "d1"⟩, ⟨"A", Side.SELL, 10, 120, 12, "d2"⟩]
      = 1 ∧
    (∀ trades : List Trade, (∀ t ∈ trades, t.side = Side.BUY) → roundTrips trades = []) ∧
    roundTrips [⟨"A", Side.BUY, 1, 100, 0, "d1"⟩, ⟨"A", Side.BUY, 1, 200, 0, "d2"⟩,
        ⟨"A", Side.SELL, 1, 300, 0, "d3"⟩] = [200] := by
  refine ⟨?_, ?_, ?_, fun trades h => foldl_tradeStep_all_buys trades h ([], []), ?_⟩
  · norm_num [roundTrips, tradeStep, pushOpen, lookupOpen, popOpen]
  · norm_num [winRate, roundTrips, tradeStep, pushOpen, lookupOpen, popOpen,
      List.filter]
  · norm_num [totalTrades, roundTrips, tradeStep, pushOpen, lookupOpen, popOpen]
  · norm_num [roundTrips, tradeStep, pushOpen, lookupOpen, popOpen]

theorem claim_c5_witness :
    roundTrips [⟨"A", Side.BUY, 1, 1, 0, "d"⟩] = [] :=
  claim_c5_trade_statistics.2.2.2.1 [⟨"A", Side.BUY, 1, 1, 0, "d"⟩] (by decide)

/-! ### Engine lemmas and claims (C4) -/

lemma equity_history_buy (p : Portfolio) (s : String) (q pr : ℚ) (d : String) :
    ((p.buy s q pr d).1).equity_history = p.equity_history := by
  simp only [Portfolio.buy]
  split <;> rfl

lemma equity_history_sell (p : Portfolio) (s : String) (q pr : ℚ) (d : String) :
    ((p.sell s q pr d).1).equity_history = p.equity_history := by
  simp only [Portfolio.sell]
  split <;> rfl

lemma equity_history_applyOp (p : Portfolio) (op : Op) :
    (applyOp p op).equity_history = p.equity_history := by
  cases op with
  | buy s q pr d => exact equity_history_buy p s q pr d
  | sell s q pr d => exact equity_history_sell p s q pr d

lemma equity_history_applyOps (ops : List Op) :
    ∀ p : Portfolio, (applyOps p ops).equity_history = p.equity_history := by
  induction ops with
  | nil => intro p; rfl
  | cons op rest ih =>
    intro p
    rw [show applyOps p (op :: rest) = applyOps (applyOp p op) rest from rfl, ih,
      equity_history_applyOp]

lemma engineStep_dates (prepared : DataMap)
    (onBar : ℕ → List (String × ℚ) → Portfolio → List Op) (p : Portfolio) (d : ℕ) :
    ((engineStep prepared onBar p d).equity_history).map Prod.fst
      = (p.equity_history).map Prod.fst ++ [d] := by
  unfold engineStep recordEquity
  dsimp only
  rw [List.map_append]
  congr 1
  split
  · rfl
  · rw [equity_history_applyOps]

lemma foldl_engineStep_dates (prepared : DataMap)
    (onBar : ℕ → List (String × ℚ) → Portfolio → List Op) (dates : List ℕ) :
    ∀ p : Portfolio,
      ((dates.foldl (engineStep prepared onBar) p).equity_history).map Prod.fst
        = (p.equity_history).map Prod.fst ++ dates := by
  induction dates with
  | nil => intro p; simp
  | cons d ds ih =>
    intro p
    rw [List.foldl_cons, ih, engineStep_dates]
    simp

lemma mem_foldl_filterDates (l : List (String × Series)) (d : ℕ) :
    ∀ init : List ℕ,
      d ∈ l.foldl (fun acc sd => acc.filter (fun x => decide (x ∈ datesOf sd.2))) init
        ↔ d ∈ init ∧ ∀ sd ∈ l, d ∈ datesOf sd.2 := by
  induction l with
  | nil => intro init; simp
  | cons sd0 l ih =>
    intro init
    rw [List.foldl_cons, ih]
    simp only [List.mem_filter, decide_eq_true_eq, List.mem_cons]
    constructor
    · rintro ⟨⟨h1, h2⟩, h3⟩
      refine ⟨h1, fun x hx => ?_⟩
      rcases hx with rfl | hx
      · exact h2
      · exact h3 x hx
    · rintro ⟨h1, h2⟩
      exact ⟨⟨h1, h2 sd0 (Or.inl rfl)⟩, fun x hx => h2 x (Or.inr hx)⟩

lemma mem_tradingDates (data : DataMap) (d : ℕ) :
    d ∈ tradingDates data ↔ data ≠ [] ∧ ∀ sd ∈ data, d ∈ datesOf sd.2 := by
  cases data with
  | nil => simp [tradingDates]
  | cons hd rest =>
    obtain ⟨s0, df⟩ := hd
    show d ∈ ((rest.foldl _ (datesOf df)).dedup.mergeSort _) ↔ _
    rw [List.mem_mergeSort, List.mem_dedup, mem_foldl_filterDates]
    constructor
    · rintro ⟨h1, h2⟩
      refine ⟨by simp, fun x hx => ?_⟩
      rcases List.mem_cons.mp hx with rfl | hx
      · exact h1
      · exact h2 x hx
    · rintro ⟨_, h2⟩
      exact ⟨h2 (s0, df) (List.mem_cons_self _ _),
        fun x hx => h2 x (List.mem_cons_of_mem _ hx)⟩

lemma tradingDates_sorted (data : DataMap) :
    List.Pairwise (· ≤ ·) (tradingDates data) := by
  cases data with
  | nil => simp [tradingDates]
  | cons hd rest =>
    obtain ⟨s0, df⟩ := hd
    show List.Pairwise _ ((rest.foldl _ (datesOf df)).dedup.mergeSort _)
    have h := @List.sorted_mergeSort ℕ (fun a b => decide (a ≤ b))
      (fun a b c hab hbc => by
        simp only [decide_eq_true_eq] at *
        exact le_trans hab hbc)
      (fun a b => by simpa using le_total a b)
      ((rest.foldl (fun acc sd => acc.filter (fun x => decide (x ∈ datesOf sd.2)))
        (datesOf df)).dedup)
    exact h.imp (fun hab => by simpa using hab)

lemma tradingDates_nodup (data : DataMap) : (tradingDates data).Nodup := by
  cases data with
  | nil => simp [tradingDates]
  | cons hd rest =>
    obtain ⟨s0, df⟩ := hd
    show (((rest.foldl _ (datesOf df)).dedup.mergeSort _)).Nodup
    exact (List.mergeSort_perm _ _).nodup_iff.mpr (List.nodup_dedup _)

lemma tradingDates_sorted_lt (data : DataMap) :
    List.Pairwise (· < ·) (tradingDates data) :=
  ((tradingDates_sorted data).and (tradingDates_nodup data)).imp
    (fun hab => lt_of_le_of_ne hab.1 hab.2)

lemma runEngine_dates (cap rate : ℚ)
    (onBar : ℕ → List (String × ℚ) → Portfolio → List Op) (data : DataMap)
    (hne : data ≠ []) (hdates : tradingDates (prepareData data) ≠ []) :
    ∃ p, runEngine cap rate onBar data = some p ∧
      p.equity_history.map Prod.fst = tradingDates (prepareData data) := by
  unfold runEngine
  rw [if_neg (by simpa [List.isEmpty_iff] using hne)]
  dsimp only
  rw [if_neg (by simpa [List.isEmpty_iff] using hdates)]
  refine ⟨_, rfl, ?_⟩
  rw [foldl_engineStep_dates]
  simp [Portfolio.init]

/-- C4: the engine simulates exactly the ascending intersection of the
non-empty symbols' date sets, recording one equity snapshot per simulated
date; on A with dates [1,2,3] and B with dates [2,3,4] only [2,3] are
simulated and the equity history has length 2. -/
theorem claim_c4_engine_calendar :
    (∀ (cap rate : ℚ) (onBar : ℕ → List (String × ℚ) → Portfolio → List Op)
        (data : DataMap), data ≠ [] → tradingDates (prepareData data) ≠ [] →
        ∃ p, runEngine cap rate onBar data = some p ∧
          p.equity_history.map Prod.fst = tradingDates (prepareData data)) ∧
    (∀ (data : DataMap) (d : ℕ),
        d ∈ tradingDates (prepareData data) ↔
          (∃ sd ∈ data, sd.2 ≠ []) ∧ (∀ sd ∈ data, sd.2 ≠ [] → d ∈ datesOf sd.2)) ∧
    (∀ data : DataMap, List.Pairwise (· < ·) (tradingDates data)) ∧
    tradingDates (prepareData
      [("A", [(1, 10), (2, 10), (3, 10)]), ("B", [(2, 10), (3, 10), (4, 10)])]) = [2, 3] ∧
    (∃ p, runEngine 100 0 (fun _ _ _ => [])
        [("A", [(1, 10), (2, 10), (3, 10)]), ("B", [(2, 10), (3, 10), (4, 10)])] = some p ∧
      p.equity_history.length = 2) := by
  have hconcrete : tradingDates (prepareData
      [("A", [(1, 10), (2, 10), (3, 10)]), ("B", [(2, 10), (3, 10), (4, 10)])]) = [2, 3] := by
    rw [show tradingDates (prepareData
        [("A", [(1, 10), (2, 10), (3, 10)]), ("B", [(2, 10), (3, 10), (4, 10)])])
      = List.mergeSort [2, 3] (· ≤ ·) from rfl]
    exact List.mergeSort_of_sorted (by decide)
  refine ⟨runEngine_dates, ?_, tradingDates_sorted_lt, hconcrete, ?_⟩
  · intro data d
    rw [mem_tradingDates]
    simp only [prepareData]
    constructor
    · rintro ⟨h1, h2⟩
      constructor
      · rcases List.exists_mem_of_ne_nil _ h1 with ⟨sd, hsd⟩
        have hsd2 := List.mem_filter.mp hsd
        exact ⟨sd, hsd2.1, by simpa using hsd2.2⟩
      · intro sd hsd hne
        exact h2 sd (List.mem_filter.mpr ⟨hsd, by simpa using hne⟩)
    · rintro ⟨⟨sd, hsd, hne⟩, h2⟩
      constructor
      · intro hnil
        rw [List.filter_eq_nil_iff] at hnil
        exact (hnil sd hsd) (by simpa using hne)
      · intro x hx
        rw [List.mem_filter] at hx
        exact h2 x hx.1 (by simpa using hx.2)
  · obtain ⟨p, hp, hmap⟩ := runEngine_dates 100 0 (fun _ _ _ => [])
      [("A", [(1, 10), (2, 10), (3, 10)]), ("B", [(2, 10), (3, 10), (4, 10)])]
      (by simp) (by rw [hconcrete]; simp)
    refine ⟨p, hp, ?_⟩
    have := congrArg List.length hmap
    simpa [hconcrete] using this

/-! ### RSI lemmas and claims (C7) -/

lemma ewmAcc_length (a : ℚ) : ∀ (xs : List ℚ) (y : ℚ), (ewmAcc a y xs).length = xs.length + 1 := by
  intro xs
  induction xs with
  | nil => intro y; rfl
  | cons x xs ih =>
    intro y
    show (y :: ewmAcc a ((1 - a) * y + a * x) xs).length = (x :: xs).length + 1
    simp [ih]

lemma ewmAcc_nonneg (a : ℚ) (ha0 : 0 ≤ a) (ha1 : a ≤ 1) :
    ∀ (xs : List ℚ) (y : ℚ), 0 ≤ y → (∀ x ∈ xs, 0 ≤ x) →
      ∀ z ∈ ewmAcc a y xs, 0 ≤ z := by
  intro xs
  induction xs with
  | nil =>
    intro y hy _ z hz
    simp only [ewmAcc, List.mem_singleton] at hz
    exact hz ▸ hy
  | cons x xs ih =>
    intro y hy hxs z hz
    simp only [ewmAcc, List.mem_cons] at hz
    rcases hz with rfl | hz
    · exact hy
    · refine ih ((1 - a) * y + a * x) ?_ (fun u hu => hxs u (List.mem_cons_of_mem _ hu)) z hz
      have hx : 0 ≤ x := hxs x (List.mem_cons_self _ _)
      have h1 : 0 ≤ (1 - a) * y := mul_nonneg (by linarith) hy
      have h2 : 0 ≤ a * x := mul_nonneg ha0 hx
      linarith

lemma ewmMean_nonneg (a : ℚ) (ha0 : 0 ≤ a) (ha1 : a ≤ 1) (xs : List ℚ)
    (hxs : ∀ x ∈ xs, 0 ≤ x) : ∀ z ∈ ewmMean a xs, 0 ≤ z := by
  cases xs with
  | nil => simp [ewmMean]
  | cons x xs =>
    exact ewmAcc_nonneg a ha0 ha1 xs x (hxs x (List.mem_cons_self _ _))
      (fun u hu => hxs u (List.mem_cons_of_mem _ hu))

lemma ewmAcc_all_pos (a : ℚ) (ha0 : 0 < a) (ha1 : a ≤ 1) :
    ∀ (xs : List ℚ) (y : ℚ), 0 < y → (∀ x ∈ xs, 0 < x) →
      ∀ z ∈ ewmAcc a y xs, 0 < z := by
  intro xs
  induction xs with
  | nil =>
    intro y hy _ z hz
    simp only [ewmAcc, List.mem_singleton] at hz
    exact hz ▸ hy
  | cons x xs ih =>
    intro y hy hxs z hz
    simp only [ewmAcc, List.mem_cons] at hz
    rcases hz with rfl | hz
    · exact hy
    · refine ih ((1 - a) * y + a * x) ?_ (fun u hu => hxs u (List.mem_cons_of_mem _ hu)) z hz
      have hx : 0 < x := hxs x (List.mem_cons_self _ _)
      have h1 : 0 ≤ (1 - a) * y := mul_nonneg (by linarith) (le_of_lt hy)
      have h2 : 0 < a * x := mul_pos ha0 hx
      linarith

lemma ewmAcc_all_zero (a : ℚ) :
    ∀ (xs : List ℚ) (y : ℚ), y = 0 → (∀ x ∈ xs, x = 0) →
      ∀ z ∈ ewmAcc a y xs, z = 0 := by
  intro xs
  induction xs with
  | nil =>
    intro y hy _ z hz
    simp only [ewmAcc, List.mem_singleton] at hz
    exact hz ▸ hy
  | cons x xs ih =>
    intro y hy hxs z hz
    simp only [ewmAcc, List.mem_cons] at hz
    rcases hz with rfl | hz
    · exact hy
    · refine ih ((1 - a) * y + a * x) ?_ (fun u hu => hxs u (List.mem_cons_of_mem _ hu)) z hz
      rw [hy, hxs x (List.mem_cons_self _ _)]
      ring

lemma getD_nonneg_of_all (l : List ℚ) (h : ∀ x ∈ l, 0 ≤ x) (i : ℕ) :
    0 ≤ l.getD i 0 := by
  by_cases hi : i < l.length
  · rw [List.getD_eq_getElem l 0 hi]
    exact h _ (List.getElem_mem hi)
  · rw [List.getD_eq_default l 0 (le_of_not_lt hi)]

lemma getD_zero_of_all (l : List ℚ) (h : ∀ x ∈ l, x = 0) (i : ℕ) :
    l.getD i 0 = 0 := by
  by_cases hi : i < l.length
  · rw [List.getD_eq_getElem l 0 hi]
    exact h _ (List.getElem_mem hi)
  · rw [List.getD_eq_default l 0 (le_of_not_lt hi)]

lemma zipWith_nonneg {f : ℚ → ℚ → ℚ} (hf : ∀ a b, 0 ≤ f a b) :
    ∀ (l1 l2 : List ℚ) (x : ℚ), x ∈ List.zipWith f l1 l2 → 0 ≤ x := by
  intro l1
  induction l1 with
  | nil => simp
  | cons a l1 ih =>
    intro l2 x hx
    cases l2 with
    | nil => simp at hx
    | cons b l2 =>
      simp only [List.zipWith_cons_cons, List.mem_cons] at hx
      rcases hx with rfl | hx
      · exact hf a b
      · exact ih l2 x hx

lemma gains_nonneg (s : List ℚ) : ∀ x ∈ gains s, 0 ≤ x := by
  cases s with
  | nil => simp [gains]
  | cons x xs =>
    intro z hz
    simp only [gains, List.mem_cons] at hz
    rcases hz with rfl | hz
    · exact le_refl 0
    · refine zipWith_nonneg (fun a b => ?_) _ _ z hz
      split
      · rename_i hab
        linarith
      · exact le_refl 0

lemma losses_nonneg (s : List ℚ) : ∀ x ∈ losses s, 0 ≤ x := by
  cases s with
  | nil => simp [losses]
  | cons x xs =>
    intro z hz
    simp only [losses, List.mem_cons] at hz
    rcases hz with rfl | hz
    · exact le_refl 0
    · refine zipWith_nonneg (fun a b => ?_) _ _ z hz
      split
      · rename_i hab
        linarith
      · exact le_refl 0

lemma rsiPoint_bounds (g l : ℚ) (hg : 0 ≤ g) (hl : 0 ≤ l) (v : ℚ)
    (hv : rsiPoint g l = some v) : 0 ≤ v ∧ v ≤ 100 := by
  unfold rsiPoint at hv
  split at hv
  · split at hv
    · exact absurd hv (by simp)
    · have : v = 100 := by
        injection hv with h
        exact h.symm
      rw [this]
      norm_num
  · rename_i hl0
    have hlpos : 0 < l := lt_of_le_of_ne hl (Ne.symm hl0)
    have hq : 0 ≤ g / l := div_nonneg hg hl
    have h1 : (0 : ℚ) < 1 + g / l := by linarith
    have h2 : 100 / (1 + g / l) ≤ 100 := by
      rw [div_le_iff₀ h1]
      nlinarith
    have h3 : 0 < 100 / (1 + g / l) := by positivity
    have hv100 : v = 100 - 100 / (1 + g / l) := by
      injection hv with h
      exact h.symm
    rw [hv100]
    constructor <;> linarith

lemma rsi_length (s : List ℚ) (period : ℕ) : (rsi s period).length = s.length := by
  simp [rsi]

lemma rsi_getD_eq (s : List ℚ) (period i : ℕ) (hi : i < s.length)
    (hp : ¬ (i + 1 < period)) :
    (rsi s period).getD i none
      = rsiPoint ((ewmMean (1 / (period : ℚ)) (gains s)).getD i 0)
          ((ewmMean (1 / (period : ℚ)) (losses s)).getD i 0) := by
  unfold rsi
  dsimp only
  rw [List.getD_eq_getElem _ _ (by simpa using hi)]
  simp only [List.getElem_map, List.getElem_range]
  rw [if_neg hp]

lemma rsi_getD_some (s : List ℚ) (period i : ℕ) (v : ℚ)
    (hv : (rsi s period).getD i none = some v) :
    i < s.length ∧ ¬ (i + 1 < period) := by
  by_cases hi : i < s.length
  · refine ⟨hi, ?_⟩
    intro hp
    rw [show (rsi s period).getD i none = none by
      unfold rsi
      dsimp only
      rw [List.getD_eq_getElem _ _ (by simpa using hi)]
      simp only [List.getElem_map, List.getElem_range]
      rw [if_pos hp]] at hv
    exact Option.noConfusion hv
  · rw [List.getD_eq_default _ _ (by simpa [rsi_length] using le_of_not_lt hi)] at hv
    exact Option.noConfusion hv

lemma losses_zip_zero :
    ∀ (x : ℚ) (xs : List ℚ), List.Chain' (· < ·) (x :: xs) →
      ∀ z ∈ List.zipWith
        (fun prev cur => if cur - prev < 0 then -(cur - prev) else 0) (x :: xs) xs,
        z = 0 := by
  intro x xs
  induction xs generalizing x with
  | nil => simp
  | cons y ys ih =>
    intro hch z hz
    rw [List.chain'_cons] at hch
    obtain ⟨hxy, hch2⟩ := hch
    simp only [List.zipWith_cons_cons, List.mem_cons] at hz
    rcases hz with rfl | hz
    · rw [if_neg (by linarith)]
    · exact ih y hch2 z hz

lemma gains_zip_pos :
    ∀ (x : ℚ) (xs : List ℚ), List.Chain' (· < ·) (x :: xs) →
      ∀ z ∈ List.zipWith
        (fun prev cur => if 0 < cur - prev then cur - prev else 0) (x :: xs) xs,
        0 < z := by
  intro x xs
  induction xs generalizing x with
  | nil => simp
  | cons y ys ih =>
    intro hch z hz
    rw [List.chain'_cons] at hch
    obtain ⟨hxy, hch2⟩ := hch
    simp only [List.zipWith_cons_cons, List.mem_cons] at hz
    rcases hz with rfl | hz
    · rw [if_pos (by linarith)]
      linarith
    · exact ih y hch2 z hz

lemma ewm_seeded_pos (a : ℚ) (ha0 : 0 < a) (ha1 : a ≤ 1) (g1 : ℚ) (rest : List ℚ)
    (hg1 : 0 < g1) (hrest : ∀ z ∈ rest, 0 < z) (i : ℕ) (hi : i < rest.length + 1) :
    0 < (ewmAcc a 0 (g1 :: rest)).getD (i + 1) 0 := by
  rw [show ewmAcc a 0 (g1 :: rest) = 0 :: ewmAcc a ((1 - a) * 0 + a * g1) rest from rfl]
  rw [List.getD_cons_succ]
  have hy : 0 < (1 - a) * 0 + a * g1 := by
    have := mul_pos ha0 hg1
    linarith [mul_pos ha0 hg1]
  have hlen : (ewmAcc a ((1 - a) * 0 + a * g1) rest).length = rest.length + 1 :=
    ewmAcc_length a rest _
  rw [List.getD_eq_getElem _ _ (by rw [hlen]; exact hi)]
  exact ewmAcc_all_pos a ha0 ha1 rest _ hy hrest _ (List.getElem_mem _)

lemma ewmMean_cons (a x : ℚ) (xs : List ℚ) : ewmMean a (x :: xs) = ewmAcc a x xs := rfl

lemma gains_cons_cons (x y : ℚ) (ys : List ℚ) :
    gains (x :: y :: ys) = 0 :: (if 0 < y - x then y - x else 0) ::
      List.zipWith (fun prev cur => if 0 < cur - prev then cur - prev else 0)
        (y :: ys) ys := rfl

lemma losses_cons (x : ℚ) (xs : List ℚ) :
    losses (x :: xs) = 0 ::
      List.zipWith (fun prev cur => if cur - prev < 0 then -(cur - prev) else 0)
        (x :: xs) xs := rfl

lemma rsi_chain_value (s : List ℚ) (hch : List.Chain' (· < ·) s) (period i : ℕ)
    (hp1 : 1 ≤ period) (hpi : period ≤ i + 1) (hi : i < s.length) (hi1 : 1 ≤ i) :
    (rsi s period).getD i none = some 100 := by
  have ha0 : (0 : ℚ) < 1 / (period : ℚ) := by
    have : (0 : ℚ) < (period : ℚ) := by exact_mod_cast hp1
    positivity
  have ha1 : (1 : ℚ) / (period : ℚ) ≤ 1 := by
    have h1 : (1 : ℚ) ≤ (period : ℚ) := by exact_mod_cast hp1
    rw [div_le_one (by linarith)]
    exact h1
  rw [rsi_getD_eq s period i hi (by omega)]
  cases s with
  | nil => simp at hi
  | cons x xs =>
    cases xs with
    | nil =>
      simp only [List.length_singleton] at hi
      omega
    | cons y ys =>
      have hxy : x < y := (List.chain'_cons.mp hch).1
      have hch2 : List.Chain' (· < ·) (y :: ys) := (List.chain'_cons.mp hch).2
      have hloss : (ewmMean (1 / (period : ℚ)) (losses (x :: y :: ys))).getD i 0 = 0 := by
        apply getD_zero_of_all
        intro z hz
        rw [losses_cons, ewmMean_cons] at hz
        exact ewmAcc_all_zero (1 / (period : ℚ)) _ 0 rfl
          (fun u hu => losses_zip_zero x (y :: ys) hch u hu) z hz
      have hgain : 0 < (ewmMean (1 / (period : ℚ)) (gains (x :: y :: ys))).getD i 0 := by
        rw [gains_cons_cons, ewmMean_cons]
        obtain ⟨j, rfl⟩ : ∃ j, i = j + 1 := ⟨i - 1, by omega⟩
        apply ewm_seeded_pos (1 / (period : ℚ)) ha0 ha1 _ _ ?_ ?_ j ?_
        · rw [if_pos (by linarith)]
          linarith
        · intro z hz
          exact gains_zip_pos y ys hch2 z hz
        · have hzlen : (List.zipWith
              (fun prev cur => if 0 < cur - prev then cur - prev else 0)
              (y :: ys) ys).length = ys.length := by
            simp
          rw [hzlen]
          simp only [List.length_cons] at hi
          omega
      simp only [rsiPoint]
      rw [if_pos hloss, if_neg (ne_of_gt hgain)]

/-- C7 counterexample: for the strictly increasing 14-point series 1..14,
RSI(14) at index 13 — one of "the first `period` points" that the claim
says are undefined — is defined (and equals 100): the ewm warm-up only
masks the first period - 1 outputs, because the undefined first delta was
already replaced by 0 in the gains/losses series. -/
theorem claim_c7_counterexample :
    (rsi [1, 2, 3, 4, 5, 6, 7, 8, 9, 10, 11, 12, 13, 14] 14).getD 13 none
      = some 100 :=
  rsi_chain_value [1, 2, 3, 4, 5, 6, 7, 8, 9, 10, 11, 12, 13, 14]
    (by norm_num) 14 13 (by norm_num) (by norm_num) (by simp) (by norm_num)

/-- C7 (amended): the undefined warm-up region is the first period - 1
points; every defined RSI value lies in [0, 100]; a defined RSI value is
100 whenever the smoothed loss average is 0; and for a strictly increasing
30-point series, RSI(14) at the last point exceeds 70 (it is 100). -/
theorem claim_c7_rsi_amended :
    (∀ (s : List ℚ) (period i : ℕ) (v : ℚ), 1 ≤ period →
        (rsi s period).getD i none = some v → 0 ≤ v ∧ v ≤ 100) ∧
    (∀ (s : List ℚ) (period i : ℕ) (v : ℚ),
        (rsi s period).getD i none = some v →
        (ewmMean (1 / (period : ℚ)) (losses s)).getD i 0 = 0 → v = 100) ∧
    (∀ (s : List ℚ) (period i : ℕ), i + 1 < period →
        (rsi s period).getD i none = none) ∧
    (∀ s : List ℚ, List.Chain' (· < ·) s → s.length = 30 →
        ∃ v, (rsi s 14).getD 29 none = some v ∧ (70 : ℚ) < v) := by
  refine ⟨?_, ?_, ?_, ?_⟩
  · intro s period i v hp hv
    obtain ⟨hi, hple⟩ := rsi_getD_some s period i v hv
    rw [rsi_getD_eq s period i hi hple] at hv
    have hper : (0 : ℚ) < (period : ℚ) := by exact_mod_cast hp
    have ha0 : (0 : ℚ) ≤ 1 / (period : ℚ) := by positivity
    have ha1 : (1 : ℚ) / (period : ℚ) ≤ 1 := by
      rw [div_le_one hper]
      exact_mod_cast hp
    refine rsiPoint_bounds _ _ ?_ ?_ v hv
    · exact getD_nonneg_of_all _
        (ewmMean_nonneg _ ha0 ha1 _ (gains_nonneg s)) i
    · exact getD_nonneg_of_all _
        (ewmMean_nonneg _ ha0 ha1 _ (losses_nonneg s)) i
  · intro s period i v hv hl
    obtain ⟨hi, hple⟩ := rsi_getD_some s period i v hv
    rw [rsi_getD_eq s period i hi hple, hl] at hv
    simp only [rsiPoint, if_pos rfl] at hv
    by_cases hg : (ewmMean (1 / (period : ℚ)) (gains s)).getD i 0 = 0
    · rw [if_pos hg] at hv
      exact Option.noConfusion hv
    · rw [if_neg hg] at hv
      injection hv with h
      exact h.symm
  · intro s period i hp
    by_cases hi : i < s.length
    · unfold rsi
      dsimp only
      rw [List.getD_eq_getElem _ _ (by simpa using hi)]
      simp only [List.getElem_map, List.getElem_range]
      rw [if_pos hp]
    · rw [List.getD_eq_default _ _ (by simpa [rsi_length] using le_of_not_lt hi)]
  · intro s hch hlen
    exact ⟨100, rsi_chain_value s hch 14 29 (by norm_num) (by norm_num)
      (by omega) (by norm_num), by norm_num⟩

theorem claim_c7_witness : (rsi [(1 : ℚ), 2, 3] 14).getD 0 none = none :=
  claim_c7_rsi_amended.2.2.1 [(1 : ℚ), 2, 3] 14 0 (by norm_num)

end StockBacktest
